import Mathlib

/-!
# Verification of the gen3sdk-python file-onboarding pipeline

Shallow embedding of the code in `gen3/samples/azure_sample.py`,
`gen3/samples/azure_blob_storage_client.py`, `gen3/hash.py` and
`gen3/cli/discovery.py`, together with models of the pure Python standard
library routines they call (`urllib.parse.urlparse`/`urlunparse`,
`os.path.basename`/`splitext`, `str`/`int` decimal conversion and
`bytes.hex`).  Remote services (indexd, sheepdog, fence) are modelled as
oracles/state machines following the external-interface section of the
specification.

Strings are modelled as `List Char` internally (with `String` wrappers),
byte strings as `List Nat` with entries below 256.
-/

namespace Gen3

/-! ## List splitting primitives

`splitFirst c l` models Python `l.split(c, 1)` / `l.find(c)`:
it returns the parts before and after the first occurrence of `c`.
`splitLast` is the `rfind`-based analogue.
-/

def splitFirst (c : Char) : List Char → Option (List Char × List Char)
  | [] => none
  | x :: xs =>
    if x = c then some ([], xs)
    else
      match splitFirst c xs with
      | some (a, b) => some (x :: a, b)
      | none => none

def splitLast (c : Char) (l : List Char) : Option (List Char × List Char) :=
  match splitFirst c l.reverse with
  | some (a, b) => some (b.reverse, a.reverse)
  | none => none

theorem splitFirst_eq_none {c : Char} {l : List Char} (h : c ∉ l) :
    splitFirst c l = none := by
  induction l with
  | nil => rfl
  | cons x xs ih =>
    simp only [List.mem_cons, not_or] at h
    have hx : ¬ x = c := fun hh => h.1 hh.symm
    simp [splitFirst, if_neg hx, ih h.2]

theorem splitFirst_append_cons {c : Char} {a : List Char} (b : List Char)
    (h : c ∉ a) : splitFirst c (a ++ c :: b) = some (a, b) := by
  induction a with
  | nil => simp [splitFirst]
  | cons x xs ih =>
    simp only [List.mem_cons, not_or] at h
    have hx : ¬ x = c := fun hh => h.1 hh.symm
    simp [splitFirst, if_neg hx, ih h.2]

theorem splitFirst_eq_some {c : Char} {l a b : List Char}
    (h : splitFirst c l = some (a, b)) : l = a ++ c :: b ∧ c ∉ a := by
  induction l generalizing a with
  | nil => simp [splitFirst] at h
  | cons x xs ih =>
    by_cases hx : x = c
    · simp only [splitFirst, if_pos hx] at h
      obtain ⟨rfl, rfl⟩ := Prod.mk.injEq .. ▸ Option.some.injEq .. ▸ h
      simp [hx]
    · simp only [splitFirst, if_neg hx] at h
      match ha : splitFirst c xs with
      | some (a0, b0) =>
        rw [ha] at h
        obtain ⟨rfl, rfl⟩ := Prod.mk.injEq .. ▸ Option.some.injEq .. ▸ h
        obtain ⟨hxs, hna⟩ := ih ha
        constructor
        · simp [hxs]
        · simp only [List.mem_cons, not_or]
          exact ⟨fun hc => hx hc.symm, hna⟩
      | none => rw [ha] at h; cases h

theorem splitFirst_isSome_of_mem {c : Char} {l : List Char} (h : c ∈ l) :
    ∃ a b, splitFirst c l = some (a, b) := by
  induction l with
  | nil => cases h
  | cons x xs ih =>
    by_cases hx : x = c
    · exact ⟨[], xs, by simp [splitFirst, hx]⟩
    · have hm : c ∈ xs := by
        rcases List.mem_cons.mp h with h1 | h1
        · exact absurd h1.symm hx
        · exact h1
      obtain ⟨a, b, hab⟩ := ih hm
      exact ⟨x :: a, b, by simp [splitFirst, if_neg hx, hab]⟩

theorem splitLast_eq_some {c : Char} {l a b : List Char}
    (h : splitLast c l = some (a, b)) : l = a ++ c :: b ∧ c ∉ b := by
  unfold splitLast at h
  match hr : splitFirst c l.reverse with
  | some (a0, b0) =>
    rw [hr] at h
    obtain ⟨rfl, rfl⟩ := Prod.mk.injEq .. ▸ Option.some.injEq .. ▸ h
    obtain ⟨hrev, hna⟩ := splitFirst_eq_some hr
    constructor
    · have := congrArg List.reverse hrev
      simpa [List.reverse_append] using this
    · simpa using hna
  | none => rw [hr] at h; cases h

theorem splitLast_append_cons {c : Char} (a : List Char) {b : List Char}
    (h : c ∉ b) : splitLast c (a ++ c :: b) = some (a, b) := by
  unfold splitLast
  have : (a ++ c :: b).reverse = b.reverse ++ c :: a.reverse := by
    simp [List.reverse_append]
  rw [this, splitFirst_append_cons _ (by simpa using h)]
  simp

theorem splitLast_eq_none {c : Char} {l : List Char} (h : c ∉ l) :
    splitLast c l = none := by
  unfold splitLast
  rw [splitFirst_eq_none (by simpa using h)]

theorem splitLast_isSome_of_mem {c : Char} {l : List Char} (h : c ∈ l) :
    ∃ a b, splitLast c l = some (a, b) := by
  obtain ⟨a, b, hab⟩ := splitFirst_isSome_of_mem (l := l.reverse) (by simpa using h)
  exact ⟨b.reverse, a.reverse, by unfold splitLast; rw [hab]⟩

/-! `takeWhile` / `dropWhile` splitting of a concatenation at the first
character failing the predicate. -/

theorem takeWhile_append_eq {p : Char → Bool} {a b : List Char}
    (ha : ∀ x ∈ a, p x = true)
    (hb : ∀ c cs, b = c :: cs → p c = false) :
    (a ++ b).takeWhile p = a := by
  induction a with
  | nil =>
    cases b with
    | nil => rfl
    | cons c cs => simp [List.takeWhile_cons, hb c cs rfl]
  | cons x xs ih =>
    have hx : p x = true := ha x (by simp)
    simp only [List.cons_append, List.takeWhile_cons, hx, if_true]
    rw [ih (fun y hy => ha y (by simp [hy]))]

theorem dropWhile_append_eq {p : Char → Bool} {a b : List Char}
    (ha : ∀ x ∈ a, p x = true)
    (hb : ∀ c cs, b = c :: cs → p c = false) :
    (a ++ b).dropWhile p = b := by
  induction a with
  | nil =>
    cases b with
    | nil => rfl
    | cons c cs => simp [List.dropWhile_cons, hb c cs rfl]
  | cons x xs ih =>
    have hx : p x = true := ha x (by simp)
    simp only [List.cons_append, List.dropWhile_cons, hx, if_true]
    exact ih (fun y hy => ha y (by simp [hy]))

theorem mem_of_mem_takeWhile {p : Char → Bool} {l : List Char} {x : Char}
    (h : x ∈ l.takeWhile p) : p x = true := by
  induction l with
  | nil => cases h
  | cons y ys ih =>
    rw [List.takeWhile_cons] at h
    by_cases hy : p y = true
    · rw [if_pos hy] at h
      rcases List.mem_cons.mp h with h1 | h1
      · exact h1 ▸ hy
      · exact ih h1
    · rw [if_neg hy] at h
      cases h

theorem dropWhile_head_false {p : Char → Bool} (l : List Char) :
    l.dropWhile p = [] ∨
      ∃ c cs, l.dropWhile p = c :: cs ∧ p c = false := by
  induction l with
  | nil => exact Or.inl rfl
  | cons x xs ih =>
    rw [List.dropWhile_cons]
    by_cases hx : p x = true
    · simpa [hx] using ih
    · have hx2 : p x = false := by simpa using hx
      exact Or.inr ⟨x, xs, by simp [hx], hx2⟩

/-! ## URL model

Model of the pure CPython routines `urllib.parse.urlparse`,
`urllib.parse.urlunparse` and the helpers they use (`urlsplit`,
`_splitnetloc`, `_splitparams`, `urlunsplit`), as called by
`AzureBlobStorageClient._convert_url_to_scheme`.  The IPv6 bracket and
netloc NFKC validations are omitted: they depend only on the netloc and
raise identically on the original and on the rewritten URL.
-/

/-- `scheme_chars` of `urllib.parse`: letters, digits and `+`, `-`, `.`. -/
def schemeChars (c : Char) : Bool :=
  c.isAlphanum || c = '+' || c = '-' || c = '.'

/-- `_WHATWG_C0_CONTROL_OR_SPACE` membership: code points up to 0x20. -/
def c0OrSpace (c : Char) : Bool := c.toNat ≤ 32

/-- `_UNSAFE_URL_BYTES_TO_REMOVE` membership: tab, CR, LF. -/
def unsafeUrlByte (c : Char) : Bool :=
  c = Char.ofNat 9 || c = Char.ofNat 13 || c = Char.ofNat 10

/-- The sanitisation `urlsplit` applies to its argument: strip leading
C0-control/space characters, then remove every tab, CR and LF. -/
def sanitizeUrl (url : List Char) : List Char :=
  (url.dropWhile c0OrSpace).filter (fun c => !unsafeUrlByte c)

structure UrlParts where
  scheme : List Char
  netloc : List Char
  path : List Char
  params : List Char
  query : List Char
  fragment : List Char
deriving DecidableEq, Repr

/-- Scheme extraction step of `urlsplit`: take everything before the first
`:` when it is nonempty, starts with an ASCII letter and consists of
scheme characters; the scheme is lowercased. -/
def splitScheme (url : List Char) : List Char × List Char :=
  match splitFirst ':' url with
  | some (pre, post) =>
    match pre with
    | [] => ([], url)
    | c :: cs =>
      if c.isAlpha && cs.all schemeChars then ((c :: cs).map Char.toLower, post)
      else ([], url)
  | none => ([], url)

def notNetlocEnd (c : Char) : Bool := !(c = '/' || c = '?' || c = '#')

/-- Netloc extraction: when the remainder starts with `//`, the netloc is
everything up to the next `/`, `?` or `#` (`_splitnetloc`). -/
def splitNetloc (l : List Char) : List Char × List Char :=
  if l.take 2 = ['/', '/'] then
    ((l.drop 2).takeWhile notNetlocEnd, (l.drop 2).dropWhile notNetlocEnd)
  else ([], l)

/-- `url, fragment = url.split('#', 1)` when `#` occurs. -/
def splitFragment (l : List Char) : List Char × List Char :=
  match splitFirst '#' l with
  | some (a, b) => (a, b)
  | none => (l, [])

/-- `url, query = url.split('?', 1)` when `?` occurs. -/
def splitQuery (l : List Char) : List Char × List Char :=
  match splitFirst '?' l with
  | some (a, b) => (a, b)
  | none => (l, [])

/-- `_splitparams`, guarded by the `';' in url` test of `urlparse`:
split the path at the first `;` occurring in its last path segment. -/
def splitParams (p : List Char) : List Char × List Char :=
  if ';' ∈ p then
    if '/' ∈ p then
      match splitLast '/' p with
      | some (a, b) =>
        match splitFirst ';' b with
        | some (b1, b2) => (a ++ '/' :: b1, b2)
        | none => (p, [])
      | none => (p, [])
    else
      match splitFirst ';' p with
      | some (a, b) => (a, b)
      | none => (p, [])
  else (p, [])

/-- `urllib.parse.uses_params`: the schemes for which `urlparse` splits
`;`-separated params off the path. -/
def usesParams : List (List Char) :=
  ["", "ftp", "hdl", "prospero", "http", "imap", "https", "shttp", "rtsp",
   "rtsps", "rtspu", "sip", "sips", "mms", "sftp", "tel"].map String.toList

/-- `urllib.parse.urlparse` on character lists: sanitise, `urlsplit`,
then params splitting gated on `scheme in uses_params`. -/
def urlparseL (url : List Char) : UrlParts :=
  let u := sanitizeUrl url
  let sr := splitScheme u
  let nr := splitNetloc sr.2
  let fr := splitFragment nr.2
  let qr := splitQuery fr.1
  let pp := if sr.1 ∈ usesParams then splitParams qr.1 else (qr.1, [])
  ⟨sr.1, nr.1, pp.1, pp.2, qr.2, fr.2⟩

/-- `urllib.parse.uses_netloc`: the schemes for which `urlunsplit` emits a
`//` authority marker even when the netloc is empty. -/
def usesNetloc : List (List Char) :=
  ["", "ftp", "http", "gopher", "nntp", "telnet", "imap", "wais", "file",
   "mms", "https", "shttp", "snews", "prospero", "rtsp", "rtsps", "rtspu",
   "rsync", "svn", "svn+ssh", "sftp", "nfs", "git", "git+ssh", "ws",
   "wss"].map String.toList

/-- `urllib.parse.urlunsplit` on character lists. -/
def urlunsplitL (scheme netloc path query fragment : List Char) : List Char :=
  let url :=
    if netloc ≠ [] ∨ (scheme ≠ [] ∧ scheme ∈ usesNetloc ∧ path.take 2 ≠ ['/', '/']) then
      let p :=
        match path with
        | [] => ([] : List Char)
        | c :: cs => if c = '/' then c :: cs else '/' :: c :: cs
      '/' :: '/' :: (netloc ++ p)
    else path
  let url := if scheme ≠ [] then scheme ++ ':' :: url else url
  let url := if query ≠ [] then url ++ '?' :: query else url
  if fragment ≠ [] then url ++ '#' :: fragment else url

/-- `urllib.parse.urlunparse` on character lists. -/
def urlunparseL (u : UrlParts) : List Char :=
  let p := if u.params ≠ [] then u.path ++ ';' :: u.params else u.path
  urlunsplitL u.scheme u.netloc p u.query u.fragment

/-- `AzureBlobStorageClient._convert_url_to_scheme`: parse the URL, rebuild
it with the given scheme and the parsed netloc, path, params, query and
fragment. -/
def convertUrlToSchemeL (url scheme : List Char) : List Char :=
  let parsed := urlparseL url
  urlunparseL ⟨scheme, parsed.netloc, parsed.path, parsed.params,
    parsed.query, parsed.fragment⟩

def urlparse (url : String) : UrlParts := urlparseL url.toList

def convert_url_to_scheme (url scheme : String) : String :=
  ⟨convertUrlToSchemeL url.toList scheme.toList⟩

/-- A candidate scheme string that `urlsplit` recognises as a scheme:
nonempty, leading ASCII letter, scheme characters throughout. -/
def validScheme : List Char → Bool
  | [] => false
  | c :: cs => c.isAlpha && cs.all schemeChars

/-! ### Character-class facts -/

theorem isAlpha_toNat_gt {c : Char} (h : c.isAlpha = true) : 32 < c.toNat := by
  unfold Char.isAlpha Char.isUpper Char.isLower at h
  simp only [Bool.or_eq_true, Bool.and_eq_true, decide_eq_true_eq] at h
  unfold Char.toNat
  rcases h with ⟨h1, _⟩ | ⟨h1, _⟩
  · have h2 : (65 : UInt32).toNat ≤ c.val.toNat := h1
    have h3 : (65 : UInt32).toNat = 65 := rfl
    omega
  · have h2 : (97 : UInt32).toNat ≤ c.val.toNat := h1
    have h3 : (97 : UInt32).toNat = 97 := rfl
    omega

theorem isAlpha_c0OrSpace {c : Char} (h : c.isAlpha = true) :
    c0OrSpace c = false := by
  have := isAlpha_toNat_gt h
  unfold c0OrSpace
  simp only [decide_eq_false_iff_not, not_le]
  exact this

theorem unsafeUrlByte_eq_true_iff {c : Char} :
    unsafeUrlByte c = true ↔ c = Char.ofNat 9 ∨ c = Char.ofNat 13 ∨ c = Char.ofNat 10 := by
  unfold unsafeUrlByte
  simp [Bool.or_eq_true, decide_eq_true_eq, or_assoc]

theorem schemeChars_not_unsafe {c : Char} (h : schemeChars c = true) :
    unsafeUrlByte c = false := by
  by_contra hc
  have hc2 := unsafeUrlByte_eq_true_iff.mp (by simpa using hc)
  rcases hc2 with rfl | rfl | rfl <;> simp [schemeChars] at h

theorem isAlpha_not_unsafe {c : Char} (h : c.isAlpha = true) :
    unsafeUrlByte c = false := by
  by_contra hc
  have hc2 := unsafeUrlByte_eq_true_iff.mp (by simpa using hc)
  rcases hc2 with rfl | rfl | rfl <;> simp [Char.isAlpha, Char.isUpper, Char.isLower] at h

theorem validScheme_parts {s : List Char} (hs : validScheme s = true) :
    ∃ c cs, s = c :: cs ∧ c.isAlpha = true ∧ cs.all schemeChars = true := by
  cases s with
  | nil => cases hs
  | cons c cs =>
    unfold validScheme at hs
    exact ⟨c, cs, rfl, (Bool.and_eq_true ..).mp hs |>.1, (Bool.and_eq_true ..).mp hs |>.2⟩

theorem validScheme_not_mem {s : List Char} (hs : validScheme s = true)
    {c : Char} (hc : schemeChars c = false ∧ c.isAlpha = false) : c ∉ s := by
  obtain ⟨a, as, rfl, ha, hall⟩ := validScheme_parts hs
  intro hmem
  rcases List.mem_cons.mp hmem with rfl | hmem2
  · exact absurd ha (by simp [hc.2])
  · have := (List.all_eq_true.mp hall) c hmem2
    exact absurd this (by simp [hc.1])

theorem validScheme_colon_not_mem {s : List Char} (hs : validScheme s = true) :
    ':' ∉ s := validScheme_not_mem hs (by decide)

theorem validScheme_not_unsafe {s : List Char} (hs : validScheme s = true) :
    ∀ x ∈ s, unsafeUrlByte x = false := by
  obtain ⟨a, as, rfl, ha, hall⟩ := validScheme_parts hs
  intro x hx
  rcases List.mem_cons.mp hx with rfl | hx2
  · exact isAlpha_not_unsafe ha
  · exact schemeChars_not_unsafe ((List.all_eq_true.mp hall) x hx2)

/-! ### Membership helpers -/

theorem mem_takeWhile_mem {p : Char → Bool} {l : List Char} {x : Char}
    (h : x ∈ l.takeWhile p) : x ∈ l :=
  (List.takeWhile_sublist p).mem h

theorem mem_dropWhile_mem {p : Char → Bool} {l : List Char} {x : Char}
    (h : x ∈ l.dropWhile p) : x ∈ l :=
  (List.dropWhile_sublist p).mem h

theorem sanitizeUrl_not_unsafe {url : List Char} :
    ∀ x ∈ sanitizeUrl url, unsafeUrlByte x = false := by
  intro x hx
  unfold sanitizeUrl at hx
  simpa using (List.mem_filter.mp hx).2

theorem sanitizeUrl_eq_self {U : List Char}
    (h1 : ∀ x ∈ U, unsafeUrlByte x = false)
    (h2 : ∀ c cs, U = c :: cs → c0OrSpace c = false) :
    sanitizeUrl U = U := by
  unfold sanitizeUrl
  have hdrop : U.dropWhile c0OrSpace = U := by
    cases U with
    | nil => rfl
    | cons c cs => rw [List.dropWhile_cons, if_neg (by simp [h2 c cs rfl])]
  rw [hdrop, List.filter_eq_self.mpr (fun a ha => by simp [h1 a ha])]

/-! ### Reparse stage lemmas -/

theorem splitScheme_prepend {s r : List Char} (hs : validScheme s = true) :
    splitScheme (s ++ ':' :: r) = (s.map Char.toLower, r) := by
  obtain ⟨c, cs, hcs, ha, hall⟩ := validScheme_parts hs
  subst hcs
  unfold splitScheme
  rw [splitFirst_append_cons r (validScheme_colon_not_mem hs)]
  simp [ha, hall]

theorem splitScheme_snd_mem {u : List Char} :
    ∀ x ∈ (splitScheme u).2, x ∈ u := by
  intro x hx
  unfold splitScheme at hx
  revert hx
  match h : splitFirst ':' u with
  | none => intro hx; exact hx
  | some (pre, post) =>
    obtain ⟨hu, _⟩ := splitFirst_eq_some h
    match pre with
    | [] => intro hx; exact hx
    | c :: cs =>
      by_cases hv : c.isAlpha && cs.all schemeChars
      · simp only [hv, if_true]
        intro hx
        rw [hu]
        simp [hx]
      · simp only [hv]
        intro hx
        simpa using hx

theorem splitNetloc_of_no_slash2 {l : List Char} (h : l.take 2 ≠ ['/', '/']) :
    splitNetloc l = ([], l) := by
  unfold splitNetloc
  rw [if_neg h]

theorem splitNetloc_slash2 {nl r : List Char}
    (hnl : ∀ x ∈ nl, notNetlocEnd x = true)
    (hr : ∀ c cs, r = c :: cs → notNetlocEnd c = false) :
    splitNetloc ('/' :: '/' :: (nl ++ r)) = (nl, r) := by
  unfold splitNetloc
  rw [if_pos (by simp)]
  simp only [List.drop_succ_cons, List.drop_zero]
  rw [takeWhile_append_eq hnl hr, dropWhile_append_eq hnl hr]

theorem splitFragment_append {a f : List Char} (h : '#' ∉ a) :
    splitFragment (a ++ '#' :: f) = (a, f) := by
  unfold splitFragment
  rw [splitFirst_append_cons f h]

theorem splitFragment_no_hash {a : List Char} (h : '#' ∉ a) :
    splitFragment a = (a, []) := by
  unfold splitFragment
  rw [splitFirst_eq_none h]

theorem splitQuery_append {a q : List Char} (h : '?' ∉ a) :
    splitQuery (a ++ '?' :: q) = (a, q) := by
  unfold splitQuery
  rw [splitFirst_append_cons q h]

theorem splitQuery_no_qmark {a : List Char} (h : '?' ∉ a) :
    splitQuery a = (a, []) := by
  unfold splitQuery
  rw [splitFirst_eq_none h]

theorem splitFirst_none_not_mem {c : Char} {l : List Char}
    (h : splitFirst c l = none) : c ∉ l := by
  intro hmem
  obtain ⟨a, b, hab⟩ := splitFirst_isSome_of_mem hmem
  rw [h] at hab
  cases hab

theorem splitFragment_cases (l : List Char) :
    (∃ a b, splitFragment l = (a, b) ∧ l = a ++ '#' :: b ∧ '#' ∉ a) ∨
    (splitFragment l = (l, []) ∧ '#' ∉ l) := by
  unfold splitFragment
  match h : splitFirst '#' l with
  | some (a, b) =>
    obtain ⟨hl, hna⟩ := splitFirst_eq_some h
    exact Or.inl ⟨a, b, rfl, hl, hna⟩
  | none => exact Or.inr ⟨rfl, splitFirst_none_not_mem h⟩

theorem splitQuery_cases (l : List Char) :
    (∃ a b, splitQuery l = (a, b) ∧ l = a ++ '?' :: b ∧ '?' ∉ a) ∨
    (splitQuery l = (l, []) ∧ '?' ∉ l) := by
  unfold splitQuery
  match h : splitFirst '?' l with
  | some (a, b) =>
    obtain ⟨hl, hna⟩ := splitFirst_eq_some h
    exact Or.inl ⟨a, b, rfl, hl, hna⟩
  | none => exact Or.inr ⟨rfl, splitFirst_none_not_mem h⟩

/-! ### `splitParams` lemmas -/

theorem splitParams_fst_mem (p0 : List Char) :
    ∀ x ∈ (splitParams p0).1, x ∈ p0 := by
  intro x hx
  unfold splitParams at hx
  by_cases h1 : ';' ∈ p0
  · by_cases h2 : '/' ∈ p0
    · match hab : splitLast '/' p0 with
      | some (a, b) =>
        obtain ⟨hp0, _⟩ := splitLast_eq_some hab
        match h3 : splitFirst ';' b with
        | some (b1, b2) =>
          simp only [if_pos h1, if_pos h2, hab, h3] at hx
          obtain ⟨hb, _⟩ := splitFirst_eq_some h3
          rw [hp0, hb]
          rcases List.mem_append.mp hx with hxa | hxb
          · simp [hxa]
          · rcases List.mem_cons.mp hxb with rfl | hxb1
            · simp
            · simp [hxb1]
        | none =>
          simp only [if_pos h1, if_pos h2, hab, h3] at hx
          exact hx
      | none =>
        simp only [if_pos h1, if_pos h2, hab] at hx
        exact hx
    · match h3 : splitFirst ';' p0 with
      | some (a, b) =>
        simp only [if_pos h1, if_neg h2, h3] at hx
        obtain ⟨hp0, _⟩ := splitFirst_eq_some h3
        rw [hp0]
        simp [hx]
      | none =>
        simp only [if_pos h1, if_neg h2, h3] at hx
        exact hx
  · simp only [if_neg h1] at hx
    exact hx

theorem splitParams_snd_mem (p0 : List Char) :
    ∀ x ∈ (splitParams p0).2, x ∈ p0 := by
  intro x hx
  unfold splitParams at hx
  by_cases h1 : ';' ∈ p0
  · by_cases h2 : '/' ∈ p0
    · match hab : splitLast '/' p0 with
      | some (a, b) =>
        obtain ⟨hp0, _⟩ := splitLast_eq_some hab
        match h3 : splitFirst ';' b with
        | some (b1, b2) =>
          simp only [if_pos h1, if_pos h2, hab, h3] at hx
          obtain ⟨hb, _⟩ := splitFirst_eq_some h3
          rw [hp0, hb]
          simp [hx]
        | none =>
          simp only [if_pos h1, if_pos h2, hab, h3] at hx
          cases hx
      | none =>
        simp only [if_pos h1, if_pos h2, hab] at hx
        cases hx
    · match h3 : splitFirst ';' p0 with
      | some (a, b) =>
        simp only [if_pos h1, if_neg h2, h3] at hx
        obtain ⟨hp0, _⟩ := splitFirst_eq_some h3
        rw [hp0]
        simp [hx]
      | none =>
        simp only [if_pos h1, if_neg h2, h3] at hx
        cases hx
  · simp only [if_neg h1] at hx
    cases hx

theorem splitParams_nil : splitParams [] = ([], []) := by decide

theorem splitParams_head_slash (cs : List Char) :
    ∃ ds, (splitParams ('/' :: cs)).1 = '/' :: ds := by
  by_cases h1 : ';' ∈ '/' :: cs
  · match hab : splitLast '/' ('/' :: cs) with
    | some (a, b) =>
      obtain ⟨hp0, _⟩ := splitLast_eq_some hab
      match h3 : splitFirst ';' b with
      | some (b1, b2) =>
        have hres : (splitParams ('/' :: cs)).1 = a ++ '/' :: b1 := by
          simp only [splitParams, if_pos h1, if_pos (show '/' ∈ '/' :: cs by simp),
            hab, h3]
        rw [hres]
        match a, hp0 with
        | [], hp0 => exact ⟨b1, by simp⟩
        | c :: as, hp0 =>
          have hc : c = '/' := by
            have := congrArg (fun l => l.head?) hp0
            simpa using this.symm
          exact ⟨as ++ '/' :: b1, by simp [hc]⟩
      | none =>
        refine ⟨cs, ?_⟩
        simp only [splitParams, if_pos h1, if_pos (show '/' ∈ '/' :: cs by simp),
          hab, h3]
    | none =>
      obtain ⟨a, b, hab2⟩ :=
        splitLast_isSome_of_mem (c := '/') (l := '/' :: cs) (by simp)
      rw [hab2] at hab
      cases hab
  · refine ⟨cs, ?_⟩
    simp only [splitParams, if_neg h1]

/-- Reassembling path and params with `;` (as `urlunparse` does) and
splitting again (as `urlparse` does) recovers the same path and params. -/
theorem splitParams_rebuild {p0 pa pr : List Char}
    (hsp : splitParams p0 = (pa, pr)) :
    splitParams (if pr = [] then pa else pa ++ ';' :: pr) = (pa, pr) := by
  by_cases h1 : ';' ∈ p0
  · by_cases h2 : '/' ∈ p0
    · match hab : splitLast '/' p0 with
      | some (a, b) =>
        obtain ⟨hp0, hnb⟩ := splitLast_eq_some hab
        match h3 : splitFirst ';' b with
        | some (b1, b2) =>
          obtain ⟨hb, hnb1⟩ := splitFirst_eq_some h3
          have hc : splitParams p0 = (a ++ '/' :: b1, b2) := by
            simp only [splitParams, if_pos h1, if_pos h2, hab, h3]
          rw [hc] at hsp
          injection hsp with hpa hpr
          subst hpa
          subst hpr
          by_cases h4 : b2 = []
          · subst h4
            rw [if_pos rfl]
            -- goal: splitParams (a ++ '/' :: b1) = (a ++ '/' :: b1, [])
            have hslash : '/' ∉ b1 := fun hx =>
              hnb (hb ▸ List.mem_append.mpr (Or.inl hx))
            by_cases h5 : ';' ∈ a ++ '/' :: b1
            · simp only [splitParams, if_pos h5,
                if_pos (show '/' ∈ a ++ '/' :: b1 by simp),
                splitLast_append_cons a hslash, splitFirst_eq_none hnb1]
            · simp only [splitParams, if_neg h5]
          · rw [if_neg h4]
            have hR : (a ++ '/' :: b1) ++ ';' :: b2 = p0 := by
              rw [hp0, hb]; simp
            rw [hR, hc]
        | none =>
          have hc : splitParams p0 = (p0, []) := by
            simp only [splitParams, if_pos h1, if_pos h2, hab, h3]
          rw [hc] at hsp
          injection hsp with hpa hpr
          subst hpa
          subst hpr
          rw [if_pos rfl, hc]
      | none =>
        obtain ⟨a, b, hab2⟩ := splitLast_isSome_of_mem h2
        rw [hab2] at hab
        cases hab
    · match h3 : splitFirst ';' p0 with
      | some (a, b) =>
        obtain ⟨hp0, hna⟩ := splitFirst_eq_some h3
        have hc : splitParams p0 = (a, b) := by
          simp only [splitParams, if_pos h1, if_neg h2, h3]
        rw [hc] at hsp
        injection hsp with hpa hpr
        subst hpa
        subst hpr
        by_cases h4 : b = []
        · subst h4
          rw [if_pos rfl]
          simp only [splitParams, if_neg hna]
        · rw [if_neg h4, ← hp0, hc]
      | none =>
        obtain ⟨a, b, hab2⟩ := splitFirst_isSome_of_mem h1
        rw [hab2] at h3
        cases h3
  · have hc : splitParams p0 = (p0, []) := by
      simp only [splitParams, if_neg h1]
    rw [hc] at hsp
    injection hsp with hpa hpr
    subst hpa
    subst hpr
    rw [if_pos rfl, hc]

theorem notNetlocEnd_false_iff {c : Char} :
    notNetlocEnd c = false ↔ c = '/' ∨ c = '?' ∨ c = '#' := by
  constructor
  · intro h
    by_contra hc
    push_neg at hc
    obtain ⟨h1, h2, h3⟩ := hc
    simp [notNetlocEnd, h1, h2, h3] at h
  · intro h
    rcases h with rfl | rfl | rfl <;> rfl

/-- Parsing the URL string reassembled by `urlunsplit` from a valid scheme,
a netloc and path/query/fragment components satisfying the invariants
`urlsplit` guarantees recovers those components. -/
theorem urlparseL_assembled {s nl p2 q f : List Char}
    (hs : validScheme s = true)
    (hnlg : ∀ x ∈ nl, notNetlocEnd x = true)
    (hp2h : p2 = [] ∨ ∃ ds, p2 = '/' :: ds)
    (hnoQ2 : '?' ∉ p2) (hnoH2 : '#' ∉ p2) (hnoHq : '#' ∉ q)
    (hclean : ∀ x, x ∈ nl ∨ x ∈ p2 ∨ x ∈ q ∨ x ∈ f → unsafeUrlByte x = false) :
    urlparseL (s ++ ':' :: '/' :: '/' ::
        (nl ++ (p2 ++ (if q = [] then [] else '?' :: q)
          ++ (if f = [] then [] else '#' :: f)))) =
      ⟨s.map Char.toLower, nl,
       (if s.map Char.toLower ∈ usesParams then splitParams p2 else (p2, [])).1,
       (if s.map Char.toLower ∈ usesParams then splitParams p2 else (p2, [])).2,
       q, f⟩ := by
  obtain ⟨c, cs, hscs, hca, hcall⟩ := validScheme_parts hs
  generalize hqe : (if q = [] then ([] : List Char) else '?' :: q) = qext
  generalize hfe : (if f = [] then ([] : List Char) else '#' :: f) = fext
  have hqextm : ∀ x ∈ qext, x = '?' ∨ x ∈ q := by
    rw [← hqe]
    intro x hx
    by_cases hq : q = [] <;> simp [hq] at hx <;> tauto
  have hfextm : ∀ x ∈ fext, x = '#' ∨ x ∈ f := by
    rw [← hfe]
    intro x hx
    by_cases hf : f = [] <;> simp [hf] at hx <;> tauto
  have hUsan : sanitizeUrl (s ++ ':' :: '/' :: '/' :: (nl ++ (p2 ++ qext ++ fext))) =
      s ++ ':' :: '/' :: '/' :: (nl ++ (p2 ++ qext ++ fext)) := by
    apply sanitizeUrl_eq_self
    · intro x hx
      simp only [List.mem_append, List.mem_cons, or_assoc] at hx
      rcases hx with hx | rfl | rfl | rfl | hx | hx | hx | hx
      · exact validScheme_not_unsafe hs x hx
      · decide
      · decide
      · decide
      · exact hclean x (Or.inl hx)
      · exact hclean x (Or.inr (Or.inl hx))
      · rcases hqextm x hx with rfl | hx2
        · decide
        · exact hclean x (Or.inr (Or.inr (Or.inl hx2)))
      · rcases hfextm x hx with rfl | hx2
        · decide
        · exact hclean x (Or.inr (Or.inr (Or.inr hx2)))
    · intro c0 cs0 hc0
      rw [hscs] at hc0
      have hcc : c0 = c := by
        have := congrArg (fun l => l.head?) hc0
        simpa using this.symm
      subst hcc
      exact isAlpha_c0OrSpace hca
  have hterm : '#' ∉ p2 ++ qext := by
    intro hx
    rcases List.mem_append.mp hx with hx | hx
    · exact hnoH2 hx
    · rcases hqextm _ hx with h | h
      · cases h
      · exact hnoHq h
  have h3 : splitFragment (p2 ++ qext ++ fext) = (p2 ++ qext, f) := by
    by_cases hf : f = []
    · have hfv : fext = [] := by rw [← hfe]; simp [hf]
      rw [hfv, List.append_nil, hf]
      exact splitFragment_no_hash hterm
    · have hfv : fext = '#' :: f := by rw [← hfe]; simp [hf]
      rw [hfv]
      exact splitFragment_append hterm
  have h4 : splitQuery (p2 ++ qext) = (p2, q) := by
    by_cases hq : q = []
    · have hqv : qext = [] := by rw [← hqe]; simp [hq]
      rw [hqv, List.append_nil, hq]
      exact splitQuery_no_qmark hnoQ2
    · have hqv : qext = '?' :: q := by rw [← hqe]; simp [hq]
      rw [hqv]
      exact splitQuery_append hnoQ2
  have hrhead : ∀ c0 cs0, p2 ++ qext ++ fext = c0 :: cs0 →
      notNetlocEnd c0 = false := by
    intro c0 cs0 hc0
    rcases hp2h with hp2 | ⟨ds, hp2⟩
    · subst hp2
      simp only [List.nil_append] at hc0
      by_cases hq : q = []
      · have hqv : qext = [] := by rw [← hqe]; simp [hq]
        rw [hqv, List.nil_append] at hc0
        by_cases hf : f = []
        · have hfv : fext = [] := by rw [← hfe]; simp [hf]
          rw [hfv] at hc0
          cases hc0
        · have hfv : fext = '#' :: f := by rw [← hfe]; simp [hf]
          rw [hfv] at hc0
          have : c0 = '#' := by
            have := congrArg (fun l => l.head?) hc0
            simpa using this.symm
          subst this
          decide
      · have hqv : qext = '?' :: q := by rw [← hqe]; simp [hq]
        rw [hqv] at hc0
        have : c0 = '?' := by
          have := congrArg (fun l => l.head?) hc0
          simpa using this.symm
        subst this
        decide
    · rw [hp2] at hc0
      have : c0 = '/' := by
        have := congrArg (fun l => l.head?) hc0
        simpa using this.symm
      subst this
      decide
  have h2 : splitNetloc ('/' :: '/' :: (nl ++ (p2 ++ qext ++ fext))) =
      (nl, p2 ++ qext ++ fext) := splitNetloc_slash2 hnlg hrhead
  have h1 : splitScheme (s ++ ':' :: '/' :: '/' :: (nl ++ (p2 ++ qext ++ fext))) =
      (s.map Char.toLower, '/' :: '/' :: (nl ++ (p2 ++ qext ++ fext))) :=
    splitScheme_prepend hs
  simp only [urlparseL, hUsan, h1, h2, h3, h4]

/-- Scheme rewriting on a URL with a nonempty authority and a valid target
scheme: the reparsed scheme is the lowercased target, netloc, query and
fragment are preserved, and path/params are preserved whenever the
params-splitting gate (`uses_params`) classifies source and target alike. -/
theorem convert_preserves (url s : List Char) (hs : validScheme s = true)
    (hnl : (urlparseL url).netloc ≠ []) :
    (urlparseL (convertUrlToSchemeL url s)).scheme = s.map Char.toLower ∧
    (urlparseL (convertUrlToSchemeL url s)).netloc = (urlparseL url).netloc ∧
    (urlparseL (convertUrlToSchemeL url s)).query = (urlparseL url).query ∧
    (urlparseL (convertUrlToSchemeL url s)).fragment = (urlparseL url).fragment ∧
    (s.map Char.toLower ∈ usesParams → (urlparseL url).scheme ∈ usesParams →
      (urlparseL (convertUrlToSchemeL url s)).path = (urlparseL url).path ∧
      (urlparseL (convertUrlToSchemeL url s)).params = (urlparseL url).params) ∧
    (s.map Char.toLower ∉ usesParams → (urlparseL url).params = [] →
      (urlparseL (convertUrlToSchemeL url s)).path = (urlparseL url).path ∧
      (urlparseL (convertUrlToSchemeL url s)).params = []) := by
  obtain ⟨sc, r1, hsr⟩ : ∃ sc r1, splitScheme (sanitizeUrl url) = (sc, r1) :=
    ⟨_, _, rfl⟩
  obtain ⟨nl, r2, hnr⟩ : ∃ nl r2, splitNetloc r1 = (nl, r2) := ⟨_, _, rfl⟩
  obtain ⟨r3, f, hfr⟩ : ∃ r3 f, splitFragment r2 = (r3, f) := ⟨_, _, rfl⟩
  obtain ⟨p0, q, hqr⟩ : ∃ p0 q, splitQuery r3 = (p0, q) := ⟨_, _, rfl⟩
  obtain ⟨pa, pr, hpp⟩ :
      ∃ pa pr, (if sc ∈ usesParams then splitParams p0 else (p0, [])) = (pa, pr) :=
    ⟨_, _, rfl⟩
  have hparse : urlparseL url = ⟨sc, nl, pa, pr, q, f⟩ := by
    simp only [urlparseL, hsr, hnr, hfr, hqr, hpp]
  replace hnl : nl ≠ [] := by
    rw [hparse] at hnl
    exact hnl
  by_cases htake : r1.take 2 = ['/', '/']
  swap
  · rw [splitNetloc_of_no_slash2 htake] at hnr
    injection hnr with i1 i2
    exact absurd i1.symm hnl
  have hnr2 := hnr
  unfold splitNetloc at hnr2
  rw [if_pos htake] at hnr2
  injection hnr2 with e1 e2
  have hnlg : ∀ x ∈ nl, notNetlocEnd x = true := by
    intro x hx
    rw [← e1] at hx
    exact mem_of_mem_takeWhile hx
  have hr2head : r2 = [] ∨ ∃ c2 cs2, r2 = c2 :: cs2 ∧ notNetlocEnd c2 = false := by
    rw [← e2]
    exact dropWhile_head_false _
  have hum : ∀ x ∈ sanitizeUrl url, unsafeUrlByte x = false := sanitizeUrl_not_unsafe
  have hr1m : ∀ x ∈ r1, x ∈ sanitizeUrl url := by
    intro x hx
    exact splitScheme_snd_mem x (by rw [hsr]; exact hx)
  have hnlm : ∀ x ∈ nl, x ∈ sanitizeUrl url := by
    intro x hx
    rw [← e1] at hx
    exact hr1m x (List.mem_of_mem_drop (mem_takeWhile_mem hx))
  have hr2m : ∀ x ∈ r2, x ∈ sanitizeUrl url := by
    intro x hx
    rw [← e2] at hx
    exact hr1m x (List.mem_of_mem_drop (mem_dropWhile_mem hx))
  have hfsplit : (r2 = r3 ++ '#' :: f ∧ '#' ∉ r3) ∨
      (f = [] ∧ r3 = r2 ∧ '#' ∉ r3) := by
    rcases splitFragment_cases r2 with ⟨a0, b0, heq, hd, hn⟩ | ⟨heq, hn⟩
    · rw [hfr] at heq
      injection heq with i1 i2
      subst i1
      subst i2
      exact Or.inl ⟨hd, hn⟩
    · rw [hfr] at heq
      injection heq with i1 i2
      exact Or.inr ⟨i2, i1, by rw [i1]; exact hn⟩
  have hqsplit : (r3 = p0 ++ '?' :: q ∧ '?' ∉ p0) ∨
      (q = [] ∧ p0 = r3 ∧ '?' ∉ p0) := by
    rcases splitQuery_cases r3 with ⟨a0, b0, heq, hd, hn⟩ | ⟨heq, hn⟩
    · rw [hqr] at heq
      injection heq with i1 i2
      subst i1
      subst i2
      exact Or.inl ⟨hd, hn⟩
    · rw [hqr] at heq
      injection heq with i1 i2
      exact Or.inr ⟨i2, i1, by rw [i1]; exact hn⟩
  have hnoH3 : '#' ∉ r3 := by
    rcases hfsplit with ⟨_, hn⟩ | ⟨_, _, hn⟩ <;> exact hn
  have hr3m : ∀ x ∈ r3, x ∈ r2 := by
    rcases hfsplit with ⟨hd, _⟩ | ⟨_, hd, _⟩
    · intro x hx; rw [hd]; simp [hx]
    · intro x hx; rw [hd] at hx; exact hx
  have hfm : ∀ x ∈ f, x ∈ r2 := by
    rcases hfsplit with ⟨hd, _⟩ | ⟨hfnil, _, _⟩
    · intro x hx; rw [hd]; simp [hx]
    · intro x hx; rw [hfnil] at hx; cases hx
  have hnoQ0 : '?' ∉ p0 := by
    rcases hqsplit with ⟨_, hn⟩ | ⟨_, _, hn⟩ <;> exact hn
  have hp0m : ∀ x ∈ p0, x ∈ r3 := by
    rcases hqsplit with ⟨hd, _⟩ | ⟨_, hd, _⟩
    · intro x hx; rw [hd]; simp [hx]
    · intro x hx; rw [← hd]; exact hx
  have hqm : ∀ x ∈ q, x ∈ r3 := by
    rcases hqsplit with ⟨hd, _⟩ | ⟨hqnil, _, _⟩
    · intro x hx; rw [hd]; simp [hx]
    · intro x hx; rw [hqnil] at hx; cases hx
  have hnoH0 : '#' ∉ p0 := fun hx => hnoH3 (hp0m _ hx)
  have hnoHq : '#' ∉ q := fun hx => hnoH3 (hqm _ hx)
  have hpap : (sc ∈ usesParams ∧ splitParams p0 = (pa, pr)) ∨
      (sc ∉ usesParams ∧ pa = p0 ∧ pr = []) := by
    by_cases hg : sc ∈ usesParams
    · rw [if_pos hg] at hpp
      exact Or.inl ⟨hg, hpp⟩
    · rw [if_neg hg] at hpp
      injection hpp with i1 i2
      exact Or.inr ⟨hg, i1.symm, i2.symm⟩
  have hpam : ∀ x ∈ pa, x ∈ p0 := by
    rcases hpap with ⟨_, hsp⟩ | ⟨_, hpa0, _⟩
    · intro x hx
      exact splitParams_fst_mem p0 x (by rw [hsp]; exact hx)
    · intro x hx; rw [hpa0] at hx; exact hx
  have hprm : ∀ x ∈ pr, x ∈ p0 := by
    rcases hpap with ⟨_, hsp⟩ | ⟨_, _, hpr0⟩
    · intro x hx
      exact splitParams_snd_mem p0 x (by rw [hsp]; exact hx)
    · intro x hx; rw [hpr0] at hx; cases hx
  obtain ⟨t, hr2p0⟩ : ∃ t, r2 = p0 ++ t := by
    rcases hfsplit with ⟨hd, _⟩ | ⟨_, hd, _⟩ <;>
      rcases hqsplit with ⟨hd2, _⟩ | ⟨_, hd2, _⟩
    · exact ⟨'?' :: q ++ '#' :: f, by rw [hd, hd2]; simp⟩
    · exact ⟨'#' :: f, by rw [hd, ← hd2]⟩
    · exact ⟨'?' :: q, by rw [← hd, hd2]⟩
    · exact ⟨[], by rw [← hd, ← hd2]; simp⟩
  have hp0head : p0 = [] ∨ ∃ cs0, p0 = '/' :: cs0 := by
    cases hp0c : p0 with
    | nil => exact Or.inl rfl
    | cons c0 cs0 =>
      right
      rw [hp0c] at hr2p0
      rcases hr2head with h | ⟨c2, cs2, hr2c, hc2⟩
      · rw [h] at hr2p0
        simp at hr2p0
      · rw [hr2c] at hr2p0
        have hcc : c2 = c0 := by
          have := congrArg (fun l => l.head?) hr2p0
          simpa using this
        subst hcc
        rcases notNetlocEnd_false_iff.mp hc2 with h2 | h2 | h2
        · exact ⟨cs0, by rw [← h2]⟩
        · exact absurd (hp0c ▸ List.mem_cons_self c2 cs0) (h2 ▸ hnoQ0)
        · exact absurd (hp0c ▸ List.mem_cons_self c2 cs0) (h2 ▸ hnoH0)
  have hpahead : (pa = [] ∧ pr = []) ∨ ∃ ds, pa = '/' :: ds := by
    rcases hp0head with rfl | ⟨cs0, rfl⟩
    · rcases hpap with ⟨_, hsp⟩ | ⟨_, rfl, rfl⟩
      · rw [splitParams_nil] at hsp
        injection hsp with i1 i2
        exact Or.inl ⟨i1.symm, i2.symm⟩
      · exact Or.inl ⟨rfl, rfl⟩
    · rcases hpap with ⟨_, hsp⟩ | ⟨_, hpa0, _⟩
      · obtain ⟨ds, hds⟩ := splitParams_head_slash cs0
        rw [hsp] at hds
        exact Or.inr ⟨ds, hds⟩
      · exact Or.inr ⟨cs0, hpa0⟩
  have hp2h : (if pr = [] then pa else pa ++ ';' :: pr) = [] ∨
      ∃ ds, (if pr = [] then pa else pa ++ ';' :: pr) = '/' :: ds := by
    rcases hpahead with ⟨rfl, rfl⟩ | ⟨ds, hpa⟩
    · left; simp
    · right
      by_cases hprq : pr = []
      · exact ⟨ds, by rw [if_pos hprq]; exact hpa⟩
      · exact ⟨ds ++ ';' :: pr, by rw [if_neg hprq, hpa]; simp⟩
  have hp2mem : ∀ x ∈ (if pr = [] then pa else pa ++ ';' :: pr),
      x ∈ p0 ∨ x = ';' := by
    intro x hx
    by_cases hprq : pr = []
    · rw [if_pos hprq] at hx
      exact Or.inl (hpam x hx)
    · rw [if_neg hprq] at hx
      rcases List.mem_append.mp hx with hx2 | hx2
      · exact Or.inl (hpam x hx2)
      · rcases List.mem_cons.mp hx2 with rfl | hx3
        · exact Or.inr rfl
        · exact Or.inl (hprm x hx3)
  have hnoQ2 : '?' ∉ (if pr = [] then pa else pa ++ ';' :: pr) := by
    intro hx
    rcases hp2mem _ hx with hx2 | hx2
    · exact hnoQ0 hx2
    · cases hx2
  have hnoH2 : '#' ∉ (if pr = [] then pa else pa ++ ';' :: pr) := by
    intro hx
    rcases hp2mem _ hx with hx2 | hx2
    · exact hnoH0 hx2
    · cases hx2
  have hp0san : ∀ x ∈ p0, x ∈ sanitizeUrl url :=
    fun x hx => hr2m x (hr3m x (hp0m x hx))
  have hunsafeAll : ∀ x,
      x ∈ nl ∨ x ∈ (if pr = [] then pa else pa ++ ';' :: pr) ∨ x ∈ q ∨ x ∈ f →
      unsafeUrlByte x = false := by
    intro x hx
    rcases hx with hx | hx | hx | hx
    · exact hum x (hnlm x hx)
    · rcases hp2mem _ hx with hx2 | rfl
      · exact hum x (hp0san x hx2)
      · decide
    · exact hum x (hr2m x (hr3m x (hqm x hx)))
    · exact hum x (hr2m x (hfm x hx))
  have hsne : s ≠ [] := by
    obtain ⟨c, cs, rfl, _, _⟩ := validScheme_parts hs
    simp
  have hifsw : (if pr ≠ [] then pa ++ ';' :: pr else pa) =
      (if pr = [] then pa else pa ++ ';' :: pr) := by
    by_cases hprq : pr = [] <;> simp [hprq]
  have hconv : convertUrlToSchemeL url s =
      s ++ ':' :: '/' :: '/' :: (nl ++ ((if pr = [] then pa else pa ++ ';' :: pr)
        ++ (if q = [] then [] else '?' :: q)
        ++ (if f = [] then [] else '#' :: f))) := by
    unfold convertUrlToSchemeL
    rw [hparse]
    unfold urlunparseL urlunsplitL
    simp only
    rw [hifsw]
    rw [if_pos (Or.inl hnl)]
    have happ : ∀ (U : List Char) (c0 : Char) (l : List Char),
        (if l ≠ [] then U ++ c0 :: l else U) = U ++ (if l = [] then [] else c0 :: l) := by
      intro U c0 l
      by_cases h : l = [] <;> simp [h]
    rw [if_pos hsne, happ, happ]
    rcases hp2h with hv | ⟨ds, hv⟩
    · rw [hv]
      simp [List.append_assoc]
    · rw [hv]
      simp [List.append_assoc]
  rw [hconv, hparse]
  rw [urlparseL_assembled hs hnlg hp2h hnoQ2 hnoH2 hnoHq hunsafeAll]
  refine ⟨rfl, rfl, rfl, rfl, ?_, ?_⟩
  · intro hin1 hin2
    rcases hpap with ⟨hg, hsp⟩ | ⟨hg, _, _⟩
    · have hreb := splitParams_rebuild hsp
      simp [if_pos hin1, hreb]
    · exact absurd hin2 hg
  · intro hout hprnil
    simp [if_neg hout, if_pos hprnil]

example : convert_url_to_scheme "https://acct/container/blob/file.txt" "az" =
    "az://acct/container/blob/file.txt" := by decide

example : convert_url_to_scheme
      "https://storageaccount/container/blob/file.txt?sv=1&sig=abc#frag" "az" =
    "az://storageaccount/container/blob/file.txt?sv=1&sig=abc#frag" := by decide

/-! ## `os.path` helpers (posixpath) -/

/-- `os.path.basename`: everything after the last `/`. -/
def basenameL (p : List Char) : List Char :=
  match splitLast '/' p with
  | some (_, b) => b
  | none => p

def basename (p : String) : String := ⟨basenameL p.toList⟩

/-- `os.path.splitext` (posix): split off the extension at the last dot of
the final path component, unless everything before that dot in the
component consists of dots only. -/
def splitextL (p : List Char) : List Char × List Char :=
  match splitLast '/' p with
  | some (d, base) =>
    match splitLast '.' base with
    | some (b1, b2) =>
      if b1.any (fun c => c != '.') then (d ++ '/' :: b1, '.' :: b2)
      else (p, [])
    | none => (p, [])
  | none =>
    match splitLast '.' p with
    | some (b1, b2) =>
      if b1.any (fun c => c != '.') then (b1, '.' :: b2)
      else (p, [])
    | none => (p, [])

/-- `os.path.splitext(file_name)[1].replace(".", "")` as computed by
`submit_metadata_sheepdog`. -/
def fileExt (file_name : String) : String :=
  ⟨((splitextL file_name.toList).2).filter (fun c => c != '.')⟩

example : basename "folder_1/test.txt" = "test.txt" := by decide
example : fileExt "folder_1/test.txt" = "txt" := by decide
example : fileExt ".bashrc" = "" := by decide

/-! ## Decimal and hex conversions (`str`, `int`, `bytes.hex`) -/

def digitChr (n : Nat) : Char := Char.ofNat (48 + n)

/-- Big-endian decimal digits of `n`, with `fuel` bounding the recursion
depth (`n ≤ fuel` suffices); structural recursion keeps it kernel-reducible. -/
def natDecAux : Nat → Nat → List Char
  | 0, _ => []
  | fuel + 1, n =>
    if n = 0 then []
    else natDecAux fuel (n / 10) ++ [digitChr (n % 10)]

/-- Python `str` of a non-negative integer (decimal). -/
def natDecL (n : Nat) : List Char := if n = 0 then ['0'] else natDecAux n n

def natDec (n : Nat) : String := ⟨natDecL n⟩

def digitVal (c : Char) : Option Nat :=
  if 48 ≤ c.toNat ∧ c.toNat ≤ 57 then some (c.toNat - 48) else none

def pyIntGo : Nat → List Char → Option Nat
  | acc, [] => some acc
  | acc, c :: cs =>
    match digitVal c with
    | some d => pyIntGo (acc * 10 + d) cs
    | none => none

/-- Python `int(string)` restricted to plain decimal digit strings (the
only shape the pipeline produces); anything else raises `ValueError`,
modelled as `none`. -/
def pyInt (l : List Char) : Option Nat :=
  if l = [] then none else pyIntGo 0 l

def pyIntS (s : String) : Option Nat := pyInt s.toList

theorem toList_mk (l : List Char) : (⟨l⟩ : String).toList = l := rfl

theorem digitVal_digitChr {d : Nat} (h : d < 10) :
    digitVal (digitChr d) = some d := by
  interval_cases d <;> decide

theorem pyIntGo_append (acc : Nat) (xs ys : List Char) :
    pyIntGo acc (xs ++ ys) = (pyIntGo acc xs).bind (fun a => pyIntGo a ys) := by
  induction xs generalizing acc with
  | nil => rfl
  | cons c cs ih =>
    simp only [List.cons_append]
    cases hd : digitVal c with
    | some d => simp [pyIntGo, hd, ih]
    | none => simp [pyIntGo, hd]

theorem pyIntGo_natDecAux : ∀ fuel n acc, n ≤ fuel →
    pyIntGo acc (natDecAux fuel n) =
      some (acc * 10 ^ (natDecAux fuel n).length + n) := by
  intro fuel
  induction fuel with
  | zero =>
    intro n acc hle
    have : n = 0 := Nat.le_zero.mp hle
    subst this
    simp [natDecAux, pyIntGo]
  | succ fuel ih =>
    intro n acc hle
    by_cases h0 : n = 0
    · subst h0
      simp [natDecAux, pyIntGo]
    · have hdef : natDecAux (fuel + 1) n =
          natDecAux fuel (n / 10) ++ [digitChr (n % 10)] := by
        rw [natDecAux, if_neg h0]
      rw [hdef, pyIntGo_append]
      have hdivlt : n / 10 < n := Nat.div_lt_self (Nat.pos_of_ne_zero h0) (by norm_num)
      have hdivle : n / 10 ≤ fuel := by omega
      rw [ih (n / 10) acc hdivle]
      have hm : n % 10 < 10 := Nat.mod_lt _ (by norm_num)
      simp only [Option.some_bind, pyIntGo, digitVal_digitChr hm]
      have hlen : (natDecAux fuel (n / 10) ++ [digitChr (n % 10)]).length =
          (natDecAux fuel (n / 10)).length + 1 := by simp
      rw [hlen]
      congr 1
      have hdm : 10 * (n / 10) + n % 10 = n := Nat.div_add_mod n 10
      ring_nf
      omega

theorem pyInt_natDecL (n : Nat) : pyInt (natDecL n) = some n := by
  by_cases h : n = 0
  · subst h; decide
  · unfold natDecL
    rw [if_neg h]
    unfold pyInt
    have hne : natDecAux n n ≠ [] := by
      match n, h with
      | m + 1, _ =>
        rw [natDecAux, if_neg (by omega)]
        simp
    rw [if_neg hne, pyIntGo_natDecAux n n 0 (le_refl n)]
    simp

theorem pyIntS_natDec (n : Nat) : pyIntS (natDec n) = some n := by
  unfold pyIntS natDec
  rw [toList_mk]
  exact pyInt_natDecL n

def hexDigitChr (n : Nat) : Char :=
  if n < 10 then Char.ofNat (48 + n) else Char.ofNat (87 + n)

/-- Python `bytes.hex()`: two lowercase hex digits per byte. -/
def bytesToHexL : List Nat → List Char
  | [] => []
  | b :: bs => hexDigitChr (b / 16) :: hexDigitChr (b % 16) :: bytesToHexL bs

def bytesToHex (bs : List Nat) : String := ⟨bytesToHexL bs⟩

def hexVal (c : Char) : Option Nat :=
  if 48 ≤ c.toNat ∧ c.toNat ≤ 57 then some (c.toNat - 48)
  else if 97 ≤ c.toNat ∧ c.toNat ≤ 102 then some (c.toNat - 87)
  else if 65 ≤ c.toNat ∧ c.toNat ≤ 70 then some (c.toNat - 55)
  else none

/-- Inverse of `bytes.hex()` (specification-side witness that the digest
value survives the hex rendering). -/
def hexDecodeL : List Char → Option (List Nat)
  | [] => some []
  | c1 :: c2 :: rest =>
    match hexVal c1, hexVal c2, hexDecodeL rest with
    | some hi, some lo, some r => some ((hi * 16 + lo) :: r)
    | _, _, _ => none
  | [_] => none

def hexDecode (s : String) : Option (List Nat) := hexDecodeL s.toList

theorem hexVal_hexDigitChr {d : Nat} (h : d < 16) :
    hexVal (hexDigitChr d) = some d := by
  interval_cases d <;> decide

theorem hexDecodeL_bytesToHexL {bs : List Nat} (h : ∀ b ∈ bs, b < 256) :
    hexDecodeL (bytesToHexL bs) = some bs := by
  induction bs with
  | nil => rfl
  | cons b bs ih =>
    have hb : b < 256 := h b (by simp)
    have hdiv : b / 16 < 16 := by omega
    have hmod : b % 16 < 16 := Nat.mod_lt _ (by norm_num)
    have hrec := ih (fun x hx => h x (by simp [hx]))
    simp only [bytesToHexL, hexDecodeL, hexVal_hexDigitChr hdiv,
      hexVal_hexDigitChr hmod, hrec]
    have hbe : b / 16 * 16 + b % 16 = b := by omega
    rw [hbe]

theorem hexDecode_bytesToHex {bs : List Nat} (h : ∀ b ∈ bs, b < 256) :
    hexDecode (bytesToHex bs) = some bs := by
  unfold hexDecode bytesToHex
  rw [toList_mk]
  exact hexDecodeL_bytesToHexL h

example : bytesToHex [212, 29, 140, 217] = "d41d8cd9" := by decide
example : natDec 1234 = "1234" := by decide

/-! ## Data model

`Blob` models one Azure blob listing entry as used by
`prepare_blob_index_metadata` (`blob.name`, `blob.size`,
`blob.content_settings.content_md5`, the latter a byte string).
`Row` is the onboarding record dict built by
`AzureBlobStorageClient.prepare_blob_index_metadata`.
-/

structure Blob where
  name : String
  size : Nat
  content_md5 : List Nat
deriving DecidableEq, Repr

structure Row where
  guid : Option String
  md5 : String
  size : String
  authz : String
  acl : String
  urls : String
  filename : String
deriving DecidableEq, Repr

/-- `AzureBlobStorageClient.prepare_blob_index_metadata`: for each blob,
build the onboarding row with a null guid, the hex rendering of the blob
MD5, the stringified size, the configured authz/acl, the container URL
joined with the blob name rewritten to the desired scheme, and the blob
name as filename. -/
def prepare_blob_index_metadata (commons_authz commons_acl : String)
    (container_url : String) (blobs : List Blob) (desired_scheme : String) :
    List Row :=
  blobs.map fun blob =>
    { guid := none
      md5 := bytesToHex blob.content_md5
      size := natDec blob.size
      authz := commons_authz
      acl := commons_acl
      urls := convert_url_to_scheme (container_url ++ "/" ++ blob.name) desired_scheme
      filename := blob.name }

/-! ## Index service model and registrar

`IndexEnv` is the oracle for the remote indexd service: the outcome of
each successive health probe and of each successive create-record call
(`some did` = success returning that document id, `none` = the HTTP call
raises).  `IdxState` accumulates the observable behaviour: probes made,
create-record calls actually issued, and printed diagnostics.
-/

structure IndexEnv where
  health : Nat → Bool
  create : Nat → Option String

/-- Python-level runtime errors the onboarding code can raise. -/
inductive PyErr where
  | unboundLocal
  | noneGetItem
  | valueError
  | typeError
deriving DecidableEq, Repr

instance {ε α : Type} [DecidableEq ε] [DecidableEq α] :
    DecidableEq (Except ε α) := fun a b =>
  match a, b with
  | .ok x, .ok y =>
    if h : x = y then .isTrue (by rw [h])
    else .isFalse (by intro hc; injection hc with h2; exact h h2)
  | .error x, .error y =>
    if h : x = y then .isTrue (by rw [h])
    else .isFalse (by intro hc; injection hc with h2; exact h h2)
  | .ok _, .error _ => .isFalse (fun hc => Except.noConfusion hc)
  | .error _, .ok _ => .isFalse (fun hc => Except.noConfusion hc)

structure CreateRecordCall where
  md5 : String
  file_name : String
  size : Nat
  acl : List String
  urls : List String
  authz : List String
deriving DecidableEq, Repr

structure IdxState where
  probeIdx : Nat
  createIdx : Nat
  probes : List Bool
  calls : List CreateRecordCall
  printed : List String
deriving DecidableEq, Repr

def IdxState.init : IdxState := ⟨0, 0, [], [], []⟩

/-- `create_index_azure`: probe indexd health; if unhealthy print a
diagnostic and return `None` (plain `return`).  Otherwise issue the
create-record call; on success return the response.  If the call raises,
the `except` block prints a diagnostic, after which `return response`
raises `UnboundLocalError` because `response` was never assigned. -/
def create_index_azure (env : IndexEnv) (s : IdxState)
    (file_md5 : String) (file_size : Nat) (file_name url authz acl : String) :
    IdxState × Except PyErr (Option String) :=
  let h := env.health s.probeIdx
  let s := { s with probeIdx := s.probeIdx + 1, probes := s.probes ++ [h] }
  if h = false then
    ({ s with printed := s.printed ++ ["indexd service is unhealthy"] }, .ok none)
  else
    let call : CreateRecordCall :=
      ⟨file_md5, file_name, file_size, [acl], [url], [authz]⟩
    let k := s.createIdx
    let s := { s with createIdx := s.createIdx + 1, calls := s.calls ++ [call] }
    match env.create k with
    | some did => (s, .ok (some did))
    | none =>
      ({ s with printed := s.printed ++
          ["ERROR ocurred when trying to create the record"] },
       .error .unboundLocal)

/-- `index_files_in_blob_storage`: for each row call `create_index_azure`
(converting the stringified size back with `int`), then read `did` out of
the response and store it as the row guid.  A `None` response makes the
subscript raise `TypeError`; any raised error aborts the loop. -/
def index_files_in_blob_storage (env : IndexEnv) :
    IdxState → List Row → IdxState × Except PyErr (List Row)
  | s, [] => (s, .ok [])
  | s, r :: rest =>
    match pyIntS r.size with
    | none => (s, .error .valueError)
    | some size =>
      match create_index_azure env s r.md5 size r.filename r.urls r.authz r.acl with
      | (s1, .error e) => (s1, .error e)
      | (s1, .ok none) => (s1, .error .noneGetItem)
      | (s1, .ok (some did)) =>
        match index_files_in_blob_storage env s1 rest with
        | (s2, .error e) => (s2, .error e)
        | (s2, .ok rows) => (s2, .ok ({ r with guid := some did } :: rows))

/-! ## Graph submission model (sheepdog)

`submit_record` models the external graph-submission service.
Modelled from the spec: the record-submission call returns
`{entities: [{id, ...}], ...}` with a server-assigned node identifier,
and the service is responsible for identifier uniqueness -- modelled by a
fresh counter.  The submitted node payloads are `_create_coremetadata_collection`
and `_create_slide_image_json` of `azure_sample.py`.
-/

inductive NodePayload where
  | coreMetadata (project_code submitter_id : String)
  | slideImage (core_metadata_node_id : Nat) (ref_submitter_id : String)
      (submitter_id : String) (file_name : String) (md5sum : String)
      (file_size : Nat) (data_format : String) (data_type : String)
      (object_id : Option String)
deriving DecidableEq, Repr

structure GraphState where
  counter : Nat
  nodes : List (Nat × NodePayload)
deriving DecidableEq, Repr

def GraphState.init : GraphState := ⟨0, []⟩

def submit_record (g : GraphState) (p : NodePayload) : Nat × GraphState :=
  (g.counter, ⟨g.counter + 1, g.nodes ++ [(g.counter, p)]⟩)

/-- Pipeline configuration (the module-level environment constants of
`azure_sample.py`). -/
structure Config where
  commons_url : String
  project_code : String
  data_type : String
deriving DecidableEq, Repr

/-- `submit_metadata_sheepdog`: generate a fresh submitter token (one
entry of the random supply `tokens`), build and submit the
core-metadata-collection node, extract the server-assigned node id from
the result, build the slide-image data node referencing that id, the same
token and the given object id, and submit it.  Returns the advanced token
index, the new graph state and the two server-assigned node ids. -/
def submit_metadata_sheepdog (cfg : Config) (tokens : Nat → String)
    (t : Nat) (g : GraphState) (file_name file_md5 : String)
    (file_size : Nat) (object_id : Option String) :
    Nat × GraphState × Nat × Nat :=
  let submitter_id := tokens t
  let core := NodePayload.coreMetadata cfg.project_code submitter_id
  let r1 := submit_record g core
  let core_metadata_node_id := r1.1
  let slide := NodePayload.slideImage core_metadata_node_id submitter_id
    submitter_id file_name file_md5 file_size (fileExt file_name)
    cfg.data_type object_id
  let r2 := submit_record r1.2 slide
  (t + 1, r2.2, core_metadata_node_id, r2.1)

structure AnnotCall where
  file_name : String
  md5 : String
  size : Nat
  object_id : Option String
deriving DecidableEq, Repr

structure AnnotateResult where
  tIdx : Nat
  graph : GraphState
  calls : List AnnotCall
  err : Option PyErr
deriving Repr

/-- `submit_metadata_to_graph`: for every row (no guid filtering), read the
guid, md5, basename of the filename and `int(size)`, and call
`submit_metadata_sheepdog`. -/
def submit_metadata_to_graph (cfg : Config) (tokens : Nat → String) :
    Nat → GraphState → List Row → AnnotateResult
  | t, g, [] => ⟨t, g, [], none⟩
  | t, g, r :: rest =>
    match pyIntS r.size with
    | none => ⟨t, g, [], some .valueError⟩
    | some size =>
      let call : AnnotCall := ⟨basename r.filename, r.md5, size, r.guid⟩
      let s1 := submit_metadata_sheepdog cfg tokens t g
        (basename r.filename) r.md5 size r.guid
      let rec1 := submit_metadata_to_graph cfg tokens s1.1 s1.2.1 rest
      ⟨rec1.tIdx, rec1.graph, call :: rec1.calls, rec1.err⟩

/-- `get_presigned_url`: ask fence for a presigned URL (its response is
taken as an abstract oracle value), log it, and return the commons page link
for the guid.  The pair is the returned value and the log lines. -/
def get_presigned_url (cfg : Config) (broker_response : String)
    (node_guid file_protocol : String) : String × List String :=
  let presigned_url := cfg.commons_url ++ "/files/" ++ node_guid
  (presigned_url,
   ["json result: " ++ broker_response,
    "Please visit this address in your browser: " ++
      cfg.commons_url ++ "/files/" ++ node_guid])

/-- Python f-string rendering of a possibly-`None` guid. -/
def pyOptStr : Option String → String
  | some s => s
  | none => "None"

/-- `get_presigned_urls`: collect the display URL for every row. -/
def get_presigned_urls (cfg : Config) (broker : Nat → String) :
    Nat → List Row → List String
  | _, [] => []
  | k, r :: rest =>
    (get_presigned_url cfg (broker k) (pyOptStr r.guid) "az").1 ::
      get_presigned_urls cfg broker (k + 1) rest

/-! ## Orchestrator -/

structure PipelineRun where
  rows : List Row
  idx : IdxState
  registered : Option (List Row)
  reachedAnnotating : Bool
  annots : List AnnotCall
  graph : GraphState
  presigned : List String
  err : Option PyErr
deriving Repr

/-- `onboard_data_files_in_blob`: list and normalise the blobs, register
each row with indexd, submit graph metadata for every row, then collect
presigned display URLs.  A raised error at any stage aborts the run
there (no stage-level exception handling in the orchestrator). -/
def onboard_data_files_in_blob (cfg : Config) (env : IndexEnv)
    (tokens : Nat → String) (broker : Nat → String)
    (commons_authz commons_acl container_url : String) (blobs : List Blob) :
    PipelineRun :=
  let rows := prepare_blob_index_metadata commons_authz commons_acl
    container_url blobs "az"
  match index_files_in_blob_storage env IdxState.init rows with
  | (s1, .error e) =>
    ⟨rows, s1, none, false, [], GraphState.init, [], some e⟩
  | (s1, .ok rows1) =>
    let ar := submit_metadata_to_graph cfg tokens 0 GraphState.init rows1
    match ar.err with
    | some e => ⟨rows, s1, some rows1, true, ar.calls, ar.graph, [], some e⟩
    | none =>
      let urls := get_presigned_urls cfg broker 0 rows1
      ⟨rows, s1, some rows1, true, ar.calls, ar.graph, urls, none⟩

/-! ## `Gen3Hash` model (`gen3/hash.py`)

A file is its byte contents (`List Nat`).  `hashlib` is modelled by what
`getattr(hashlib, name)` followed by the zero-argument call and a
no-argument `hexdigest()` does for each attribute name, which in CPython
falls into three classes:

* a zero-argument constructor whose object's `hexdigest()` takes no
  argument (`md5`, `sha1`, `sha256`, ...): the chunked read loop feeds
  every chunk to `hash.update`, and `hexdigest` yields the digest of the
  concatenation of the chunks — an abstract function of the bytes read;
* an attribute that exists but raises `TypeError` on this use:
  `hashlib.new` (the call needs a name argument), and `shake_128` /
  `shake_256` (their `hexdigest` needs a length argument).  `get_hash`
  catches only `AttributeError`, so this `TypeError` propagates;
* a missing attribute: `getattr` raises `AttributeError`, which
  `get_hash` catches, logs, and turns into `None`.

`ThreadPool.map` is order-preserving; collecting its results re-raises
the first worker exception.  The workers are side-effect-free here and
every raisable error in the model is the same `TypeError`, so which
failing worker wins is immaterial.
-/

def CHUNK_SIZE : Nat := 4 * 1024

def readChunksAux : Nat → List Nat → List (List Nat)
  | 0, _ => []
  | fuel + 1, l =>
    if l = [] then []
    else l.take CHUNK_SIZE :: readChunksAux fuel (l.drop CHUNK_SIZE)

/-- The chunked read loop of `Gen3Hash.get_hash`: the successive
`f.readinto` chunks of the file contents. -/
def readChunks (contents : List Nat) : List (List Nat) :=
  readChunksAux contents.length contents

/-- What `getattr(hashlib, name)` + the zero-argument call + a
no-argument `hexdigest()` does for one attribute name: a usable
zero-argument constructor (its `digest` maps the bytes fed through
`update` to the hexdigest), an existing attribute raising `TypeError`
on this use (`new`, `shake_128`, `shake_256`), or a missing attribute
(`getattr` raises `AttributeError`). -/
inductive HashAttr where
  | ctor (digest : List Nat → String)
  | raisesTypeError
  | attributeError

structure HashlibModel where
  attr : String → HashAttr

/-- `Gen3Hash.get_hash`: `getattr(hashlib, hash_type)()` under `except
AttributeError` — a missing attribute is caught, logged, and returns
`None`; a `TypeError` (from calling `new` without a name, or later from
`shake_128`/`shake_256` `hexdigest()` without a length) is NOT caught and
propagates.  On a usable constructor the file is read in chunks, each fed
to `hash.update`, and the result is the dict `{hash_type: hexdigest}`,
modelled as a pair. -/
def get_hash (hl : HashlibModel) (contents : List Nat) (hash_type : String) :
    Except PyErr (Option (String × String)) :=
  match hl.attr hash_type with
  | .ctor digest =>
    .ok (some (hash_type, digest (readChunks contents).flatten))
  | .raisesTypeError => .error .typeError
  | .attributeError => .ok none

/-- Collecting `ThreadPool.map` results: order-preserving, and an
uncaught worker exception is re-raised (all raisable errors in this
model coincide, so taking the first is general). -/
def collectHashes : List (Except PyErr (Option (String × String))) →
    Except PyErr (List (Option (String × String)))
  | [] => .ok []
  | .error e :: _ => .error e
  | .ok v :: rest => (collectHashes rest).map (v :: ·)

/-- `Gen3Hash.get_hashes`: `ThreadPool.map(self.get_hash, hash_types)`. -/
def get_hashes (hl : HashlibModel) (contents : List Nat)
    (hash_types : List String) : Except PyErr (List (Option (String × String))) :=
  collectHashes (hash_types.map (get_hash hl contents))

/-- A small concrete `hashlib`: `md5` usable, `shake_128` and `new`
present but raising `TypeError` on this use, everything else missing. -/
def hashlibSample : HashlibModel :=
  ⟨fun t =>
    if t = "md5" then .ctor (fun l => "digest-md5-" ++ natDec l.length)
    else if t = "shake_128" then .raisesTypeError
    else if t = "new" then .raisesTypeError
    else .attributeError⟩

structure CtxObj where
  endpoint : Option String
deriving DecidableEq, Repr

/-- One invocation of `publish_discovery_metadata`, with the arguments the
CLI passes. -/
inductive PublishCall where
  | withEndpoint (file : Option String) (endpoint : String) (omit_empty : Bool)
  | plain (file : Option String) (omit_empty : Bool)
deriving DecidableEq, Repr

/-- `discovery_publish`: prompt for a file name when none was given and
`--default-file` is unset (an empty string argument is falsy too); then,
when the context carries an endpoint, publish with that endpoint — and
afterwards publish again unconditionally without it. -/
def discovery_publish (ctx : CtxObj) (file : Option String)
    (use_default_file omit_empty : Bool) (prompt_reply : String) :
    List PublishCall :=
  let file := if (file = none ∨ file = some "") ∧ use_default_file = false
    then some prompt_reply else file
  match ctx.endpoint with
  | some e => [.withEndpoint file e omit_empty, .plain file omit_empty]
  | none => [.plain file omit_empty]

/-! ## Claim theorems -/

/-- Claim C3, counterexample to the claim as stated: the scheme rewrite
does not preserve the parsed components for every URL and every target
scheme string.  With the intended target scheme `az`, a URL whose path
carries `;`-params loses the path/params classification on reparse
(`az` is not in `uses_params`), and an arbitrary target string containing
`#` corrupts even the netloc. -/
theorem c3_counterexample :
    ¬ ((urlparse (convert_url_to_scheme "https://h/p;par" "az")).path =
          (urlparse "https://h/p;par").path ∧
        (urlparse (convert_url_to_scheme "https://h/p;par" "az")).params =
          (urlparse "https://h/p;par").params) ∧
    (urlparse (convert_url_to_scheme "https://h/p" "a#b")).netloc ≠
      (urlparse "https://h/p").netloc := by decide

/-- Claim C3 (amended): for every URL with a nonempty authority and every
syntactically valid target scheme, the rewritten URL reparses with the
lowercased target scheme and the netloc, query and fragment preserved
verbatim; the path and params components are preserved as well whenever
the `uses_params` gate classifies source and target alike (both schemes
params-splitting, or target non-splitting and the source URL parsed with
empty params).  In particular rewriting
`https://acct/container/blob/file.txt` to scheme `az` yields exactly
`az://acct/container/blob/file.txt`. -/
theorem c3_scheme_rewrite_preserves_components :
    (∀ url s : String, validScheme s.toList = true →
      (urlparse url).netloc ≠ [] →
      (urlparse (convert_url_to_scheme url s)).scheme =
          s.toList.map Char.toLower ∧
        (urlparse (convert_url_to_scheme url s)).netloc = (urlparse url).netloc ∧
        (urlparse (convert_url_to_scheme url s)).query = (urlparse url).query ∧
        (urlparse (convert_url_to_scheme url s)).fragment =
          (urlparse url).fragment ∧
        (s.toList.map Char.toLower ∈ usesParams →
          (urlparse url).scheme ∈ usesParams →
          (urlparse (convert_url_to_scheme url s)).path = (urlparse url).path ∧
          (urlparse (convert_url_to_scheme url s)).params =
            (urlparse url).params) ∧
        (s.toList.map Char.toLower ∉ usesParams →
          (urlparse url).params = [] →
          (urlparse (convert_url_to_scheme url s)).path = (urlparse url).path ∧
          (urlparse (convert_url_to_scheme url s)).params = [])) ∧
    convert_url_to_scheme "https://acct/container/blob/file.txt" "az" =
      "az://acct/container/blob/file.txt" :=
  ⟨fun url s hs hnl => convert_preserves url.toList s.toList hs hnl, by decide⟩

/-- Witness for C3 at the specification example `https→az`. -/
theorem c3_witness :
    (validScheme ("az" : String).toList = true ∧
      (urlparse "https://acct/container/blob/file.txt").netloc ≠ []) ∧
    (urlparse (convert_url_to_scheme "https://acct/container/blob/file.txt"
        "az")).netloc = (urlparse "https://acct/container/blob/file.txt").netloc ∧
    (urlparse (convert_url_to_scheme "https://acct/container/blob/file.txt"
        "az")).fragment =
      (urlparse "https://acct/container/blob/file.txt").fragment :=
  ⟨⟨by decide, by decide⟩,
    (c3_scheme_rewrite_preserves_components.1
      "https://acct/container/blob/file.txt" "az" (by decide) (by decide)).2.1,
    (c3_scheme_rewrite_preserves_components.1
      "https://acct/container/blob/file.txt" "az" (by decide) (by decide)).2.2.2.1⟩

/-- Claim C6: for every guid and protocol, `get_presigned_url` returns the
commons page link (commons URL joined with `/files/` and the guid),
independent of whatever the access broker answered; the broker response
appears only in the log. -/
theorem c6_presigned_url_returns_commons_link
    (cfg : Config) (resp resp2 guid proto proto2 : String) :
    (get_presigned_url cfg resp guid proto).1 =
      cfg.commons_url ++ "/files/" ++ guid ∧
    (get_presigned_url cfg resp guid proto).1 =
      (get_presigned_url cfg resp2 guid proto2).1 ∧
    ("json result: " ++ resp) ∈ (get_presigned_url cfg resp guid proto).2 :=
  ⟨rfl, rfl, by simp [get_presigned_url]⟩

/-- Claim C10: when the CLI context carries an `endpoint`, the discovery
publish command invokes the publish operation twice on the same file —
once with the endpoint and once without, the second call being
unconditional; without an endpoint it publishes exactly once. -/
theorem c10_discovery_publish_double_invocation (ctx : CtxObj)
    (file : Option String) (udf oe : Bool) (reply : String) :
    (∀ e, ctx.endpoint = some e →
      ∃ fl, discovery_publish ctx file udf oe reply =
        [PublishCall.withEndpoint fl e oe, PublishCall.plain fl oe]) ∧
    (ctx.endpoint = none →
      ∃ fl, discovery_publish ctx file udf oe reply =
        [PublishCall.plain fl oe]) := by
  unfold discovery_publish
  constructor
  · intro e he
    rw [he]
    exact ⟨_, rfl⟩
  · intro he
    rw [he]
    exact ⟨_, rfl⟩

/-- Witness for C10: concrete context with and without an endpoint. -/
theorem c10_witness :
    (∃ fl, discovery_publish ⟨some "https://commons.example"⟩ none false true
        "file.tsv" =
      [PublishCall.withEndpoint fl "https://commons.example" true,
       PublishCall.plain fl true]) ∧
    (∃ fl, discovery_publish ⟨none⟩ (some "x.tsv") false false "file.tsv" =
      [PublishCall.plain fl false]) :=
  ⟨(c10_discovery_publish_double_invocation ⟨some "https://commons.example"⟩
      none false true "file.tsv").1 "https://commons.example" rfl,
   (c10_discovery_publish_double_invocation ⟨none⟩ (some "x.tsv") false false
      "file.tsv").2 rfl⟩

/-- Counterexample to claim C9 as stated: requesting `shake_128` (an
existing `hashlib` attribute whose no-argument `hexdigest()` raises an
uncaught `TypeError`) alongside `md5` destroys the whole batch, `md5`
result included, whereas the `md5`-only request succeeds — so an
unsupported name CAN be fatal and CAN affect the other requested
algorithms. -/
theorem c9_counterexample :
    get_hashes hashlibSample [1, 2, 3] ["md5", "shake_128"] =
      Except.error PyErr.typeError ∧
    get_hashes hashlibSample [1, 2, 3] ["md5"] =
      Except.ok [some ("md5", "digest-md5-3")] :=
  ⟨rfl, rfl⟩

/-- Claim C5: every invocation of `submit_metadata_sheepdog` consumes one
fresh submitter token, first submits the core-metadata-collection node,
extracts the server-assigned identifier of that submission, then submits
the data node referencing that identifier (with the same token) and
carrying the given guid as object id — in that order; and a second
invocation for the same guid yields a distinct core-metadata-collection
node identifier (not idempotent). -/
theorem c5_sheepdog_two_node_submission (cfg : Config)
    (tokens : Nat → String) (t : Nat) (g : GraphState)
    (fn md5 : String) (size : Nat) (oid : Option String) :
    (submit_metadata_sheepdog cfg tokens t g fn md5 size oid).1 = t + 1 ∧
    (submit_metadata_sheepdog cfg tokens t g fn md5 size oid).2.1.nodes =
      g.nodes ++
        [(g.counter, NodePayload.coreMetadata cfg.project_code (tokens t)),
         (g.counter + 1, NodePayload.slideImage g.counter (tokens t) (tokens t)
            fn md5 size (fileExt fn) cfg.data_type oid)] ∧
    (submit_metadata_sheepdog cfg tokens t g fn md5 size oid).2.2.1 =
      g.counter ∧
    (submit_metadata_sheepdog cfg tokens
        (submit_metadata_sheepdog cfg tokens t g fn md5 size oid).1
        (submit_metadata_sheepdog cfg tokens t g fn md5 size oid).2.1
        fn md5 size oid).2.2.1 ≠
      (submit_metadata_sheepdog cfg tokens t g fn md5 size oid).2.2.1 := by
  refine ⟨rfl, by simp [submit_metadata_sheepdog, submit_record], rfl, ?_⟩
  simp only [submit_metadata_sheepdog, submit_record]
  omega

/-- Claim C7: the metadata normalizer keeps the blob size (the same
non-negative integer, re-readable with `int`) and the content digest (the
same byte value, recoverable from the hex rendering) for every produced
row; the only transformed field is the URL, which is the blob storage URL
put through the scheme rewrite. -/
theorem c7_normalizer_preserves_size_and_hash (authz acl cu scheme : String)
    (blobs : List Blob) (i : Fin blobs.length)
    (hb : ∀ b ∈ (blobs.get i).content_md5, b < 256) :
    (prepare_blob_index_metadata authz acl cu blobs scheme).length =
      blobs.length ∧
    (prepare_blob_index_metadata authz acl cu blobs scheme)[i.val]? = some
      { guid := none
        md5 := bytesToHex (blobs.get i).content_md5
        size := natDec (blobs.get i).size
        authz := authz
        acl := acl
        urls := convert_url_to_scheme (cu ++ "/" ++ (blobs.get i).name) scheme
        filename := (blobs.get i).name } ∧
    pyIntS (natDec (blobs.get i).size) = some (blobs.get i).size ∧
    hexDecode (bytesToHex (blobs.get i).content_md5) =
      some (blobs.get i).content_md5 := by
  refine ⟨by simp [prepare_blob_index_metadata], ?_,
    pyIntS_natDec _, hexDecode_bytesToHex hb⟩
  simp [prepare_blob_index_metadata, List.getElem?_map,
    List.getElem?_eq_getElem i.isLt]

/-- Witness for C7 at a concrete blob. -/
theorem c7_witness :
    (∀ b ∈ ([212, 29] : List Nat), b < 256) ∧
    (prepare_blob_index_metadata "/programs" "*" "https://acct/container"
        [⟨"folder_1/test.txt", 3, [212, 29]⟩] "az")[0]? = some
      { guid := none, md5 := "d41d", size := "3", authz := "/programs",
        acl := "*", urls := "az://acct/container/folder_1/test.txt",
        filename := "folder_1/test.txt" } ∧
    pyIntS "3" = some 3 ∧
    hexDecode "d41d" = some [212, 29] := by
  refine ⟨by decide, ?_⟩
  have h := c7_normalizer_preserves_size_and_hash "/programs" "*"
    "https://acct/container" "az" [⟨"folder_1/test.txt", 3, [212, 29]⟩]
    ⟨0, by decide⟩ (by decide)
  obtain ⟨-, h2, h3, h4⟩ := h
  refine ⟨?_, ?_, ?_⟩
  · rw [h2]; decide
  · simpa using h3
  · simpa using h4

/-- Registration success invariant: every row returned by a successful
`index_files_in_blob_storage` run carries a non-null guid. -/
theorem index_files_ok_guid_some (env : IndexEnv) :
    ∀ (rows : List Row) (s s1 : IdxState) (rows1 : List Row),
    index_files_in_blob_storage env s rows = (s1, .ok rows1) →
    ∀ r ∈ rows1, ∃ d, r.guid = some d := by
  intro rows
  induction rows with
  | nil =>
    intro s s1 rows1 h r hr
    simp only [index_files_in_blob_storage] at h
    have h2 := congrArg Prod.snd h
    simp only at h2
    injection h2 with h3
    subst h3
    cases hr
  | cons rr rest ih =>
    intro s s1 rows1 h r hr
    cases hsz : pyIntS rr.size with
    | none =>
      simp only [index_files_in_blob_storage, hsz] at h
      exact Except.noConfusion (congrArg Prod.snd h)
    | some sz =>
      rcases hc : create_index_azure env s rr.md5 sz rr.filename rr.urls
          rr.authz rr.acl with ⟨s2, res⟩
      cases res with
      | error e =>
        simp only [index_files_in_blob_storage, hsz, hc] at h
        exact Except.noConfusion (congrArg Prod.snd h)
      | ok o =>
        cases o with
        | none =>
          simp only [index_files_in_blob_storage, hsz, hc] at h
          exact Except.noConfusion (congrArg Prod.snd h)
        | some did =>
          rcases hrec : index_files_in_blob_storage env s2 rest with ⟨s3, res2⟩
          cases res2 with
          | error e =>
            simp only [index_files_in_blob_storage, hsz, hc, hrec] at h
            exact Except.noConfusion (congrArg Prod.snd h)
          | ok rows2 =>
            simp only [index_files_in_blob_storage, hsz, hc, hrec] at h
            have h2 := congrArg Prod.snd h
            simp only at h2
            injection h2 with h3
            subst h3
            rcases List.mem_cons.mp hr with rfl | hmem
            · exact ⟨did, rfl⟩
            · exact ih s2 s3 rows2 hrec r hmem

/-- The annotating stage performs no guid filtering: when no error is
raised it issues exactly one graph submission per row. -/
theorem submit_metadata_to_graph_length (cfg : Config)
    (tokens : Nat → String) :
    ∀ (rows : List Row) (t : Nat) (g : GraphState),
    (submit_metadata_to_graph cfg tokens t g rows).err = none →
    (submit_metadata_to_graph cfg tokens t g rows).calls.length =
      rows.length := by
  intro rows
  induction rows with
  | nil => intro t g _; rfl
  | cons rr rest ih =>
    intro t g h
    cases hsz : pyIntS rr.size with
    | none =>
      simp only [submit_metadata_to_graph, hsz] at h
      exact Option.noConfusion h
    | some sz =>
      simp only [submit_metadata_to_graph, hsz] at h ⊢
      simp only [List.length_cons]
      exact congrArg (· + 1) (ih _ _ h)

/-- Claim C4, counterexample to the skipping clause: the annotating stage
does not skip a record whose guid is null — it submits graph metadata for
it with a null object id. -/
theorem c4_counterexample :
    (submit_metadata_to_graph ⟨"https://c", "P1", "image"⟩ (fun _ => "tok") 0
        GraphState.init
        [{ guid := none, md5 := "d4", size := "3", authz := "/programs",
           acl := "*", urls := "az://h/f.txt", filename := "f.txt" }]).calls =
      [⟨"f.txt", "d4", 3, none⟩] ∧
    ([(⟨"f.txt", "d4", 3, none⟩ : AnnotCall)] : List AnnotCall) ≠ [] := by
  decide

/-- Claim C4 (amended): the guid is null from creation by the normalizer
until registration succeeds — the normalizer sets it to null, and every
row coming out of a successful registration pass has a non-null guid, so
the records the orchestrated ANNOTATING stage actually receives all carry
one (a registration failure crashes the run before ANNOTATING); but the
ANNOTATING stage itself performs no null-guid filtering: it submits one
graph submission per record unconditionally. -/
theorem c4_guid_lifecycle :
    (∀ (authz acl cu scheme : String) (blobs : List Blob) (r : Row),
      r ∈ prepare_blob_index_metadata authz acl cu blobs scheme →
      r.guid = none) ∧
    (∀ (env : IndexEnv) (s s1 : IdxState) (rows rows1 : List Row),
      index_files_in_blob_storage env s rows = (s1, .ok rows1) →
      ∀ r ∈ rows1, ∃ d, r.guid = some d) ∧
    (∀ (cfg : Config) (tokens : Nat → String) (t : Nat) (g : GraphState)
        (rows : List Row),
      (submit_metadata_to_graph cfg tokens t g rows).err = none →
      (submit_metadata_to_graph cfg tokens t g rows).calls.length =
        rows.length) ∧
    (∀ (cfg : Config) (env : IndexEnv) (tokens broker : Nat → String)
        (ca cl cu : String) (blobs : List Blob),
      (onboard_data_files_in_blob cfg env tokens broker ca cl cu
          blobs).reachedAnnotating = true →
      ∃ rows1,
        (onboard_data_files_in_blob cfg env tokens broker ca cl cu
            blobs).registered = some rows1 ∧
        ∀ r ∈ rows1, ∃ d, r.guid = some d) := by
  refine ⟨?_, ?_, ?_, ?_⟩
  · intro authz acl cu scheme blobs r hr
    unfold prepare_blob_index_metadata at hr
    obtain ⟨b, _, rfl⟩ := List.mem_map.mp hr
    rfl
  · intro env s s1 rows rows1 h
    exact index_files_ok_guid_some env rows s s1 rows1 h
  · intro cfg tokens t g rows h
    exact submit_metadata_to_graph_length cfg tokens rows t g h
  · intro cfg env tokens broker ca cl cu blobs h
    rcases hidx : index_files_in_blob_storage env IdxState.init
        (prepare_blob_index_metadata ca cl cu blobs "az") with ⟨s1, res⟩
    cases res with
    | error e => simp [onboard_data_files_in_blob, hidx] at h
    | ok rows1 =>
      refine ⟨rows1, ?_, ?_⟩
      · cases har : (submit_metadata_to_graph cfg tokens 0 GraphState.init
            rows1).err with
        | some e => simp [onboard_data_files_in_blob, hidx, har]
        | none => simp [onboard_data_files_in_blob, hidx, har]
      · intro r hr
        exact index_files_ok_guid_some env _ _ _ _ hidx r hr

/-- Witness for C4: a concrete blob is normalised with a null guid, gains
one after successful registration, and ANNOTATING submits one call per
record. -/
theorem c4_witness :
    ({ guid := none, md5 := "00", size := "3", authz := "/programs",
       acl := "*", urls := "az://acct/container/f.txt",
       filename := "f.txt" } : Row) ∈
      prepare_blob_index_metadata "/programs" "*" "https://acct/container"
        [⟨"f.txt", 3, [0]⟩] "az" ∧
    (({ guid := none, md5 := "00", size := "3", authz := "/programs",
        acl := "*", urls := "az://acct/container/f.txt",
        filename := "f.txt" } : Row).guid = none) ∧
    (index_files_in_blob_storage ⟨fun _ => true, fun k => some (natDec k)⟩
        IdxState.init
        [{ guid := none, md5 := "00", size := "3", authz := "/programs",
           acl := "*", urls := "az://acct/container/f.txt",
           filename := "f.txt" }] =
      (⟨1, 1, [true],
        [⟨"00", "f.txt", 3, ["*"], ["az://acct/container/f.txt"],
          ["/programs"]⟩], []⟩,
        .ok [{ guid := some "0", md5 := "00", size := "3",
               authz := "/programs", acl := "*",
               urls := "az://acct/container/f.txt",
               filename := "f.txt" }])) ∧
    (∀ r ∈ [({ guid := some "0", md5 := "00", size := "3",
               authz := "/programs", acl := "*",
               urls := "az://acct/container/f.txt",
               filename := "f.txt" } : Row)], ∃ d, r.guid = some d) ∧
    ((submit_metadata_to_graph ⟨"https://c", "P1", "image"⟩ (fun _ => "tok")
        0 GraphState.init
        [{ guid := some "0", md5 := "00", size := "3", authz := "/programs",
           acl := "*", urls := "az://acct/container/f.txt",
           filename := "f.txt" }]).err = none) ∧
    ((submit_metadata_to_graph ⟨"https://c", "P1", "image"⟩ (fun _ => "tok")
        0 GraphState.init
        [{ guid := some "0", md5 := "00", size := "3", authz := "/programs",
           acl := "*", urls := "az://acct/container/f.txt",
           filename := "f.txt" }]).calls.length = 1) := by
  refine ⟨by decide, ?_, by decide, ?_, by decide, ?_⟩
  · exact c4_guid_lifecycle.1 "/programs" "*" "https://acct/container" "az"
      [⟨"f.txt", 3, [0]⟩] _ (by decide)
  · exact c4_guid_lifecycle.2.1 ⟨fun _ => true, fun k => some (natDec k)⟩
      IdxState.init
      ⟨1, 1, [true],
        [⟨"00", "f.txt", 3, ["*"], ["az://acct/container/f.txt"],
          ["/programs"]⟩], []⟩
      [{ guid := none, md5 := "00", size := "3", authz := "/programs",
         acl := "*", urls := "az://acct/container/f.txt",
         filename := "f.txt" }]
      [{ guid := some "0", md5 := "00", size := "3", authz := "/programs",
         acl := "*", urls := "az://acct/container/f.txt",
         filename := "f.txt" }]
      (by decide)
  · exact c4_guid_lifecycle.2.2.1 ⟨"https://c", "P1", "image"⟩
      (fun _ => "tok") 0 GraphState.init
      [{ guid := some "0", md5 := "00", size := "3", authz := "/programs",
         acl := "*", urls := "az://acct/container/f.txt",
         filename := "f.txt" }]
      (by decide)

/-- Claim C1, counterexample to the claim as stated: the health probe is
issued per item inside `create_index_azure`, not once per batch.  With a
two-blob batch whose first probe succeeds and second fails, a health probe
returns `false` during the run and yet a create-record call has been
issued. -/
theorem c1_counterexample :
    false ∈ (onboard_data_files_in_blob ⟨"https://c", "P1", "image"⟩
        ⟨fun k => k == 0, fun k => some (natDec k)⟩ (fun _ => "tok")
        (fun _ => "resp") "/programs" "*" "https://acct/container"
        [⟨"a.txt", 1, [0]⟩, ⟨"b.txt", 2, [1]⟩]).idx.probes ∧
    (onboard_data_files_in_blob ⟨"https://c", "P1", "image"⟩
        ⟨fun k => k == 0, fun k => some (natDec k)⟩ (fun _ => "tok")
        (fun _ => "resp") "/programs" "*" "https://acct/container"
        [⟨"a.txt", 1, [0]⟩, ⟨"b.txt", 2, [1]⟩]).idx.calls.length = 1 := by
  decide

/-- Claim C1 (amended): the index health probe is a per-item check inside
`create_index_azure`.  When the service is unhealthy throughout (so the
first probe returns false), no create-record call is ever issued, the
unhealthy diagnostic is printed, only a single probe happens, and the run
crashes with a `TypeError` (subscripting the `None` result) before the
ANNOTATING stage — rather than cleanly reporting `ServiceUnavailable`. -/
theorem c1_health_probe_behaviour (cfg : Config) (env : IndexEnv)
    (tokens broker : Nat → String) (ca cl cu : String) (blobs : List Blob)
    (hh : ∀ k, env.health k = false) (hb : blobs ≠ []) :
    (onboard_data_files_in_blob cfg env tokens broker ca cl cu
        blobs).idx.calls = [] ∧
    (onboard_data_files_in_blob cfg env tokens broker ca cl cu
        blobs).idx.probes = [false] ∧
    (onboard_data_files_in_blob cfg env tokens broker ca cl cu
        blobs).reachedAnnotating = false ∧
    (onboard_data_files_in_blob cfg env tokens broker ca cl cu
        blobs).err = some PyErr.noneGetItem ∧
    "indexd service is unhealthy" ∈
      (onboard_data_files_in_blob cfg env tokens broker ca cl cu
        blobs).idx.printed := by
  obtain ⟨b, bs, rfl⟩ : ∃ b bs, blobs = b :: bs := by
    cases blobs with
    | nil => exact absurd rfl hb
    | cons b bs => exact ⟨b, bs, rfl⟩
  have hrow : prepare_blob_index_metadata ca cl cu (b :: bs) "az" =
      { guid := none, md5 := bytesToHex b.content_md5, size := natDec b.size,
        authz := ca, acl := cl,
        urls := convert_url_to_scheme (cu ++ "/" ++ b.name) "az",
        filename := b.name } ::
        prepare_blob_index_metadata ca cl cu bs "az" := by
    simp [prepare_blob_index_metadata]
  have hcia : create_index_azure env IdxState.init (bytesToHex b.content_md5)
      b.size b.name (convert_url_to_scheme (cu ++ "/" ++ b.name) "az") ca cl =
      (⟨1, 0, [false], [], ["indexd service is unhealthy"]⟩, .ok none) := by
    unfold create_index_azure
    simp [hh 0, IdxState.init]
  have hidx : index_files_in_blob_storage env IdxState.init
      (prepare_blob_index_metadata ca cl cu (b :: bs) "az") =
      (⟨1, 0, [false], [], ["indexd service is unhealthy"]⟩,
        .error PyErr.noneGetItem) := by
    rw [hrow]
    simp only [index_files_in_blob_storage, pyIntS_natDec, hcia]
  simp [onboard_data_files_in_blob, hidx]

/-- Witness for C1 at a concrete one-blob batch with an always-unhealthy
index service. -/
theorem c1_witness :
    (∀ k, (⟨fun _ => false, fun k => some (natDec k)⟩ : IndexEnv).health k =
      false) ∧
    ([(⟨"a.txt", 1, [0]⟩ : Blob)] ≠ []) ∧
    (onboard_data_files_in_blob ⟨"https://c", "P1", "image"⟩
        ⟨fun _ => false, fun k => some (natDec k)⟩ (fun _ => "tok")
        (fun _ => "resp") "/programs" "*" "https://acct/container"
        [⟨"a.txt", 1, [0]⟩]).idx.calls = [] ∧
    (onboard_data_files_in_blob ⟨"https://c", "P1", "image"⟩
        ⟨fun _ => false, fun k => some (natDec k)⟩ (fun _ => "tok")
        (fun _ => "resp") "/programs" "*" "https://acct/container"
        [⟨"a.txt", 1, [0]⟩]).err = some PyErr.noneGetItem :=
  ⟨fun _ => rfl, by decide,
    (c1_health_probe_behaviour ⟨"https://c", "P1", "image"⟩
      ⟨fun _ => false, fun k => some (natDec k)⟩ (fun _ => "tok")
      (fun _ => "resp") "/programs" "*" "https://acct/container"
      [⟨"a.txt", 1, [0]⟩] (fun _ => rfl) (by decide)).1,
    (c1_health_probe_behaviour ⟨"https://c", "P1", "image"⟩
      ⟨fun _ => false, fun k => some (natDec k)⟩ (fun _ => "tok")
      (fun _ => "resp") "/programs" "*" "https://acct/container"
      [⟨"a.txt", 1, [0]⟩] (fun _ => rfl) (by decide)).2.2.2.1⟩

end Gen3
